import Mathlib

/-!
Verification of the `cyclical_learning_rates` notebook.

The notebook reproduces figures for the paper "Super-Acceleration with
Cyclical Step-sizes".  Its numeric content consists of closed-form real
formulas (Chebyshev polynomial evaluation, Polyak momentum constants,
cyclical step-size constants) plus two small fixed-point iterations on a
concrete 2-D quadratic.  This file embeds that content over `ℝ` and proves
the claimed properties.

Python globals: several notebook functions read variables (`t`, `mu`, `L`)
defined outside the function body.  The embedding makes this explicit via a
`Globals` record passed to every function; a function's body reads from it
exactly the variables the source function reads from the enclosing scope.

Python floats are modelled as real numbers; integer literals such as `0.2`
are modelled by the corresponding rationals.  `m ** (t/2)` (Python float
power of a nonnegative base, with `t` a nonnegative integer) is modelled as
`Real.sqrt m ^ t`, which agrees with it for every `m ≥ 0`.
-/

open scoped Classical

noncomputable section

/-- Notebook-level global variables read by some of the functions:
the degree `t` of the loop in the residual-polynomial cell, and the problem
constants `mu`, `L`. -/
structure Globals where
  t : ℕ
  mu : ℝ
  L : ℝ

/-- `np.sign` on reals: `1` for positive, `-1` for negative, `0` for zero. -/
def npSign (x : ℝ) : ℝ := if 0 < x then 1 else if x < 0 then -1 else 0

/-- `np.min` of a list (junk value `0` on the empty list, which numpy rejects). -/
def npMin : List ℝ → ℝ
  | [] => 0
  | x :: xs => xs.foldl min x

/-- `np.max` of a list (junk value `0` on the empty list). -/
def npMax : List ℝ → ℝ
  | [] => 0
  | x :: xs => xs.foldl max x

/-- `scipy.special.eval_chebyt` at integer degree: Chebyshev polynomial of the
first kind, by its three-term recurrence. -/
def chebT : ℕ → ℝ → ℝ
  | 0, _ => 1
  | 1, s => s
  | n + 2, s => 2 * s * chebT (n + 1) s - chebT n s

/-- `scipy.special.eval_chebyu` at integer degree: Chebyshev polynomial of the
second kind, by its three-term recurrence. -/
def chebU : ℕ → ℝ → ℝ
  | 0, _ => 1
  | 1, s => 2 * s
  | n + 2, s => 2 * s * chebU (n + 1) s - chebU n s

/-- `poly_gd(x, t)`: residual polynomial of gradient descent.  Reads the
globals `mu` and `L` for the step size. -/
def poly_gd (g : Globals) (x : ℝ) (t : ℕ) : ℝ :=
  (1 - (2 / (g.mu + g.L)) * x) ^ t

/-- `poly_polyak(x, low, high, degree)`: residual polynomial of Polyak
momentum.  The exponent `m ** (t/2)` reads the GLOBAL `t`, not the `degree`
argument. -/
def poly_polyak (g : Globals) (x low high : ℝ) (degree : ℕ) : ℝ :=
  let m := ((Real.sqrt high - Real.sqrt low) / (Real.sqrt high + Real.sqrt low)) ^ 2
  let h := (2 / (Real.sqrt high + Real.sqrt low)) ^ 2
  let s := (1 + m - h * x) / (2 * Real.sqrt m)
  Real.sqrt m ^ g.t *
    ((2 * m / (1 + m)) * chebT degree s + ((1 - m) / (1 + m)) * chebU degree s)

/-- `poly_cyclical(x, mu1, L1, mu2, L2, degree)`: residual polynomial of the
cyclical method.  As in `poly_polyak`, the exponent reads the GLOBAL `t`. -/
def poly_cyclical (g : Globals) (x mu1 L1 mu2 L2 : ℝ) (degree : ℕ) : ℝ :=
  let rho := (L2 + mu1) / (L2 - mu1)
  let R := (mu2 - L1) / (L2 - mu1)
  let m := ((Real.sqrt (rho ^ 2 - R ^ 2) - Real.sqrt (rho ^ 2 - 1)) /
      Real.sqrt (1 - R ^ 2)) ^ 2
  let h0 := (1 + m) / L1
  let h1 := (1 + m) / mu2
  let tmp := (1 + m - h0 * x) * (1 + m - h1 * x)
  let s := Real.sqrt |tmp| * npSign tmp / (2 * Real.sqrt m)
  Real.sqrt m ^ g.t *
    ((2 * m / (1 + m)) * chebT degree s + ((1 - m) / (1 + m)) * chebU degree s)

/-- `sigma(x, m, h)` from the link-function cell. -/
def sigma (_g : Globals) (x m h : ℝ) : ℝ :=
  (1 + m - h * x) / (2 * Real.sqrt m)

/-- `zeta(x, m, h0, h1)` from the link-function cell, as a scalar function:
the numpy version applies this formula elementwise, choosing the branch by
the mask `idx = (1+m-h0*x > 0) & (1+m-h1*x > 0)`. -/
def zeta (_g : Globals) (x m h0 h1 : ℝ) : ℝ :=
  if 0 < 1 + m - h0 * x ∧ 0 < 1 + m - h1 * x then
    Real.sqrt ((1 + m - h0 * x) * (1 + m - h1 * x) / (4 * m))
  else
    -Real.sqrt ((1 + m - h0 * x) * (1 + m - h1 * x) / (4 * m))

/-- `sigma_r(x, m, r)` from the robust-region cell.  Reads the globals `L`
and `mu`. -/
def sigma_r (g : Globals) (x m r : ℝ) : ℝ :=
  let h1 := (1 + m) / (0.5 * (g.L + g.mu) - r * 0.5 * (g.L - g.mu))
  let h0 := (1 + m) / (0.5 * (g.L + g.mu) + r * 0.5 * (g.L - g.mu))
  |(1 + m - h0 * x) * (1 + m - h1 * x) / (2 * m) - 1|

/-- `cyclical_rate(kappa, R)`: returns `(r_polyak, r_cyclical, r_approx)`.
The scalar semantics; the numpy broadcasting branch does not change any
returned value. -/
def cyclical_rate (_g : Globals) (kappa R : ℝ) : ℝ × ℝ × ℝ :=
  let rho := (1 + kappa) / (1 - kappa)
  let r_polyak := rho - Real.sqrt (rho ^ 2 - 1)
  let r_cyclical := (Real.sqrt (rho ^ 2 - R ^ 2) - Real.sqrt (rho ^ 2 - 1)) /
    Real.sqrt (1 - R ^ 2)
  let r_approx := 1 - (1 - r_polyak) / Real.sqrt (1 - R ^ 2)
  (r_polyak, r_cyclical, r_approx)

/-! ## The 2-D heavy-ball animation cell -/

/-- Eigenvalues of the animation Hessian `H = [[2, 0], [0, 0.2]]`, ascending,
as `np.linalg.eigvalsh` returns them (the matrix is diagonal, so its
eigenvalues are its diagonal entries). -/
def eigsAnim : List ℝ := [1 / 5, 2]

/-- `L = np.linalg.eigvalsh(H).max()`. -/
def Lanim : ℝ := npMax eigsAnim

/-- `mu = np.linalg.eigvalsh(H).min()`. -/
def muAnim : ℝ := npMin eigsAnim

/-- `H @ v` for the animation Hessian. -/
def hessMul (v : ℝ × ℝ) : ℝ × ℝ :=
  (2 * v.1 + 0 * v.2, 0 * v.1 + (1 / 5) * v.2)

/-- `x_init = np.array([1.5, 2.5])`. -/
def xInit : ℝ × ℝ := (3 / 2, 5 / 2)

/-- Polyak step size `h` of the animation cell. -/
def hPolyakAnim : ℝ := (2 / (Real.sqrt Lanim + Real.sqrt muAnim)) ^ 2

/-- Polyak momentum `m` of the animation cell. -/
def mPolyakAnim : ℝ :=
  ((Real.sqrt Lanim - Real.sqrt muAnim) / (Real.sqrt Lanim + Real.sqrt muAnim)) ^ 2

/-- `rho = (L2 + mu1) / (L2 - mu1)` with `mu1 = mu`, `L2 = L`. -/
def rhoAnim : ℝ := (Lanim + muAnim) / (Lanim - muAnim)

/-- `R = 0.9` in the animation cell. -/
def Ranim : ℝ := 9 / 10

/-- `L1 = mu + (1 - R) * (L - mu) / 2`. -/
def L1anim : ℝ := muAnim + (1 - Ranim) * (Lanim - muAnim) / 2

/-- `mu2 = L - (1 - R) * (L - mu) / 2`. -/
def mu2anim : ℝ := Lanim - (1 - Ranim) * (Lanim - muAnim) / 2

/-- Cyclical momentum `m` of the animation cell. -/
def mCycAnim : ℝ :=
  ((Real.sqrt (rhoAnim ^ 2 - Ranim ^ 2) - Real.sqrt (rhoAnim ^ 2 - 1)) /
    Real.sqrt (1 - Ranim ^ 2)) ^ 2

/-- One loop body of the Polyak-momentum loop: from `(xt, xt_old)` and the
iteration index `i`, the new `xt`. -/
def momentumStep (i : ℕ) (xt xtOld : ℝ × ℝ) : ℝ × ℝ :=
  let grad := hessMul xt
  if i = 0 then xt - (2 / (Lanim + muAnim)) • grad
  else xt - hPolyakAnim • grad + mPolyakAnim • (xt - xtOld)

/-- One loop body of the cyclical heavy-ball loop. -/
def cyclicalStep (i : ℕ) (xt xtOld : ℝ × ℝ) : ℝ × ℝ :=
  let grad := hessMul xt
  if i = 0 then xt - (2 / (Lanim + muAnim)) • grad
  else if i % 2 = 0 then
    xt - ((1 + mCycAnim) / L1anim) • grad + mCycAnim • (xt - xtOld)
  else
    xt - ((1 + mCycAnim) / mu2anim) • grad + mCycAnim • (xt - xtOld)

/-- The `(xt, xt_old)` pair after `i` iterations of the Polyak loop. -/
def momentumState : ℕ → (ℝ × ℝ) × (ℝ × ℝ)
  | 0 => (xInit, xInit)
  | i + 1 =>
    let s := momentumState i
    (momentumStep i s.1 s.2, s.1)

/-- The `(xt, xt_old)` pair after `i` iterations of the cyclical loop. -/
def cyclicalState : ℕ → (ℝ × ℝ) × (ℝ × ℝ)
  | 0 => (xInit, xInit)
  | i + 1 =>
    let s := cyclicalState i
    (cyclicalStep i s.1 s.2, s.1)

/-- `all_iterates_momentum[i]`: the loop stores `xt` before update `i`. -/
def allIteratesMomentum (i : ℕ) : ℝ × ℝ := (momentumState i).1

/-- `all_iterates_cyclical[i]`. -/
def allIteratesCyclical (i : ℕ) : ℝ × ℝ := (cyclicalState i).1

/-! ## Spectral bounds derivations -/

/-- `L1 = mu + (1-R) * (L-mu) / 2` (animation, link-function, robust-region
cells). -/
def L1closedForm (mu L R : ℝ) : ℝ := mu + (1 - R) * (L - mu) / 2

/-- `mu2 = L - (1-R) * (L-mu) / 2`. -/
def mu2closedForm (mu L R : ℝ) : ℝ := L - (1 - R) * (L - mu) / 2

/-- `L1 = (mu1 + L2)/2 - (L2 - mu1) * R / 2` (landscape cell). -/
def L1centered (mu1 L2 R : ℝ) : ℝ := (mu1 + L2) / 2 - (L2 - mu1) * R / 2

/-- `mu2 = (mu1 + L2)/2 + (L2 - mu1) * R / 2` (landscape cell). -/
def mu2centered (mu1 L2 R : ℝ) : ℝ := (mu1 + L2) / 2 + (L2 - mu1) * R / 2

/-- `eigs[-1]` of an eigenvalue list. -/
def eigLast (l : List ℝ) : ℝ := l.getLastD 0

/-- `eigs[-2]` of an eigenvalue list. -/
def eigPenult (l : List ℝ) : ℝ := l.dropLast.getLastD 0

/-- The MNIST cell's `L1 = eigs[-2]`. -/
def mnistL1 (eigs : List ℝ) : ℝ := eigPenult eigs

/-- The MNIST cell's `mu2 = L2 - (L1 - mu1)` with `L2 = eigs[-1]`,
`mu1 = np.min(eigs)`. -/
def mnistMu2 (eigs : List ℝ) : ℝ :=
  eigLast eigs - (eigPenult eigs - npMin eigs)

/-- `np.linspace(a, b, num)` (with endpoint): `a + (b-a) * i / (num-1)`. -/
def linspace (a b : ℝ) (num : ℕ) : List ℝ :=
  (List.range num).map fun i : ℕ => a + (b - a) * (i : ℝ) / ((num : ℝ) - 1)

/-- The `R` values of the cyclical link-function loop:
`np.concatenate((np.linspace(0, 0.5, 20), np.linspace(0.5, 0, 20)))`. -/
def cell15Rs : List ℝ := linspace 0 (1 / 2) 20 ++ linspace (1 / 2) 0 20

/-- The `R` values of the robust-region loop:
`np.concatenate([all_R, all_R[::-1]])` with `all_R = np.linspace(0, 1.0, 30)`. -/
def cell23Rs : List ℝ := linspace 0 1 30 ++ (linspace 0 1 30).reverse

/-- The `R` values of the landscape loop, `all_R = np.linspace(0, 0.75, 40)`. -/
def cell27Rs : List ℝ := linspace 0 (3 / 4) 40 ++ (linspace 0 (3 / 4) 40).reverse

/-! ## PNG frame paths -/

/-- Python `'%02d' % n` for a nonnegative `n`: decimal, zero-padded to width
at least 2. -/
def format02d (n : ℕ) : String :=
  if n < 10 then "0" ++ toString n else toString n

/-- `f_path = 'comparison_cyclical_%02d.png' % i`. -/
def comparisonCyclicalPath (i : ℕ) : String :=
  "comparison_cyclical_" ++ format02d i ++ ".png"

/-- `f_path = 'CyclicalResidualPolynomial%02d.png' % (t // 2)`. -/
def residualPolynomialPath (t : ℕ) : String :=
  "CyclicalResidualPolynomial" ++ format02d (t / 2) ++ ".png"

/-- `f_path = 'link_function_constant_%02d.png' % i`. -/
def linkConstantPath (i : ℕ) : String :=
  "link_function_constant_" ++ format02d i ++ ".png"

/-- `f_path = 'link_function_cyclical_%02d.png' % i`. -/
def linkCyclicalPath (i : ℕ) : String :=
  "link_function_cyclical_" ++ format02d i ++ ".png"

/-- `f_path = 'robust_region_cyclical_%02d.png' % i_R`. -/
def robustRegionPath (i : ℕ) : String :=
  "robust_region_cyclical_" ++ format02d i ++ ".png"

/-- `f_path = 'rate_convergence_cyclical_%02d.png' % it`. -/
def rateConvergencePath (i : ℕ) : String :=
  "rate_convergence_cyclical_" ++ format02d i ++ ".png"

/-- `f_path = 'asymptotic_rate_%02d.png' % i`. -/
def asymptoticRatePath (i : ℕ) : String :=
  "asymptotic_rate_" ++ format02d i ++ ".png"

/-- The spec's `<prefix>_%02d.png` convention: some stem, an underscore, the
index zero-padded to two digits, then `.png`. -/
def followsFrameConvention (path : String) (idx : ℕ) : Prop :=
  ∃ stem : String, path = stem ++ "_" ++ format02d idx ++ ".png"

/-- Reads the decimal digits of a two-digit string back as a number (used to
state that `%02d` formatting is lossless below 100). -/
def decodeDigits (s : String) : ℕ :=
  s.data.foldl (fun acc c => 10 * acc + (c.toNat - 48)) 0

/-! ## Helper lemmas -/

theorem sqrt_eq_of_sq_eq {a b : ℝ} (hb : 0 ≤ b) (h : b ^ 2 = a) :
    Real.sqrt a = b := by
  rw [← h]; exact Real.sqrt_sq hb

theorem chebT_neg : ∀ (n : ℕ) (s : ℝ), chebT n (-s) = (-1) ^ n * chebT n s
  | 0, s => by simp [chebT]
  | 1, s => by simp [chebT]
  | n + 2, s => by
    simp only [chebT, chebT_neg (n + 1) s, chebT_neg n s]
    ring

theorem chebU_neg : ∀ (n : ℕ) (s : ℝ), chebU n (-s) = (-1) ^ n * chebU n s
  | 0, s => by simp [chebU]
  | 1, s => by simp [chebU]
  | n + 2, s => by
    simp only [chebU, chebU_neg (n + 1) s, chebU_neg n s]
    ring

/-- The Polyak residual-polynomial combination evaluates to `1` at the point
`s = (1+m)/(2*sqrt m)`, for every degree and every positive momentum. -/
theorem polyakCombo_at_one (m : ℝ) (hm : 0 < m) (t : ℕ) :
    Real.sqrt m ^ t *
      ((2 * m / (1 + m)) * chebT t ((1 + m) / (2 * Real.sqrt m)) +
        ((1 - m) / (1 + m)) * chebU t ((1 + m) / (2 * Real.sqrt m))) = 1 := by
  have hq : Real.sqrt m ≠ 0 := ne_of_gt (Real.sqrt_pos.mpr hm)
  have hm1 : (1 : ℝ) + m ≠ 0 := by positivity
  have hq2 : Real.sqrt m ^ 2 = m := Real.sq_sqrt hm.le
  set q := Real.sqrt m with hqdef
  set s : ℝ := (1 + m) / (2 * q) with hs
  have h2sq : 2 * s * q = 1 + m := by
    rw [hs]; field_simp; ring
  -- strengthen to a two-step induction
  suffices H : ∀ t : ℕ,
      (q ^ t * ((2 * m / (1 + m)) * chebT t s + ((1 - m) / (1 + m)) * chebU t s) = 1) ∧
      (q ^ (t + 1) *
        ((2 * m / (1 + m)) * chebT (t + 1) s + ((1 - m) / (1 + m)) * chebU (t + 1) s) = 1) by
    exact (H t).1
  intro t
  induction t with
  | zero =>
    constructor
    · simp only [pow_zero, one_mul, chebT, chebU]
      field_simp
      ring
    · simp only [zero_add, pow_one, chebT, chebU]
      rw [hs]
      field_simp
      ring
  | succ n ih =>
    refine ⟨ih.2, ?_⟩
    have e1 := ih.2
    have e2 := ih.1
    have expand : q ^ (n + 1 + 1) *
        ((2 * m / (1 + m)) * chebT (n + 1 + 1) s + ((1 - m) / (1 + m)) * chebU (n + 1 + 1) s) =
        2 * s * q *
          (q ^ (n + 1) * ((2 * m / (1 + m)) * chebT (n + 1) s + ((1 - m) / (1 + m)) * chebU (n + 1) s)) -
        q ^ 2 * (q ^ n * ((2 * m / (1 + m)) * chebT n s + ((1 - m) / (1 + m)) * chebU n s)) := by
      simp only [chebT, chebU]
      ring
    rw [expand, e1, e2, mul_one, mul_one, hq2]
    linarith [h2sq]

/-- Every element of `np.linspace(a, b, num)` with both endpoints in `[0, 1]`
lies in `[0, 1]`. -/
theorem linspace_mem_unit {a b : ℝ} (ha0 : 0 ≤ a) (ha1 : a ≤ 1)
    (hb0 : 0 ≤ b) (hb1 : b ≤ 1) (num : ℕ) :
    ∀ x ∈ linspace a b num, 0 ≤ x ∧ x ≤ 1 := by
  intro x hx
  rw [linspace] at hx
  obtain ⟨i, hir, rfl⟩ := List.mem_map.mp hx
  have hi : i < num := List.mem_range.mp hir
  by_cases h1 : (num : ℝ) - 1 = 0
  · have hnum1 : num = 1 := by
      have : (num : ℝ) = 1 := by linarith
      exact_mod_cast this
    have hi0 : i = 0 := by omega
    subst hi0
    simp only [Nat.cast_zero, mul_zero, zero_div, add_zero]
    exact ⟨ha0, ha1⟩
  · have hnum2 : 2 ≤ num := by
      have hn0 : 1 ≤ num := by omega
      have hn1 : num ≠ 1 := by
        intro h
        apply h1
        rw [h]; norm_num
      omega
    have hpos : 0 < (num : ℝ) - 1 := by
      have : (2 : ℝ) ≤ (num : ℝ) := by exact_mod_cast hnum2
      linarith
    have hθ0 : 0 ≤ (i : ℝ) / ((num : ℝ) - 1) :=
      div_nonneg (Nat.cast_nonneg i) hpos.le
    have hθ1 : (i : ℝ) / ((num : ℝ) - 1) ≤ 1 := by
      rw [div_le_one hpos]
      have : i + 1 ≤ num := hi
      have hc : ((i : ℝ) + 1) ≤ (num : ℝ) := by exact_mod_cast this
      linarith
    rw [mul_div_assoc]
    set θ : ℝ := (i : ℝ) / ((num : ℝ) - 1) with hθ
    constructor
    · nlinarith [mul_nonneg ha0 (sub_nonneg.mpr hθ1), mul_nonneg hb0 hθ0]
    · nlinarith [mul_nonneg (sub_nonneg.mpr ha1) (sub_nonneg.mpr hθ1),
        mul_nonneg (sub_nonneg.mpr hb1) hθ0]

/-! ## Claim C3 -/

/-- Claim C3 counterexample: the MNIST-variant derivation
`L1 = eigs[-2], mu2 = L2 - (L1 - mu1)` does not guarantee `L1 <= mu2`: on the
ascending PSD spectrum `[0, 1, 1]` it yields `L1 = 1 > 0 = mu2`.  The
invariant at that site is a property of the downloaded data, not of the
code. -/
theorem mnist_bounds_can_invert :
    mnistMu2 [0, 1, 1] < mnistL1 [0, 1, 1] := by
  have hpen : eigPenult [0, 1, 1] = 1 := by
    simp [eigPenult, List.dropLast]
  have hlast : eigLast [0, 1, 1] = 1 := by
    simp [eigLast]
  have hmin : npMin [0, 1, 1] = 0 := by
    simp only [npMin, List.foldl]
    rw [min_eq_left (by norm_num : (0:ℝ) ≤ 1), min_eq_left (by norm_num : (0:ℝ) ≤ 1)]
  simp only [mnistMu2, mnistL1, hpen, hlast, hmin]
  norm_num

/-- Claim C3 (amended): at every closed-form parameterization site the
invariants hold: `L1 <= mu2` whenever `mu <= L` and `0 <= R <= 1`, and every
`R` drawn from the loops' ranges (including the animation cell's `R = 0.9`)
lies in `[0, 1]`.  At the MNIST-eigenvalue site, `L1 <= mu2` holds exactly
when the spectrum satisfies `2*eigs[-2] <= eigs[-1] + min(eigs)`, which the
code does not enforce. -/
theorem spectral_bounds_invariants :
    (∀ mu L R : ℝ, mu ≤ L → 0 ≤ R → R ≤ 1 →
      L1closedForm mu L R ≤ mu2closedForm mu L R) ∧
    (∀ mu1 L2 R : ℝ, mu1 ≤ L2 → 0 ≤ R →
      L1centered mu1 L2 R ≤ mu2centered mu1 L2 R) ∧
    ((0 : ℝ) ≤ Ranim ∧ Ranim ≤ 1) ∧
    (∀ R ∈ cell15Rs, 0 ≤ R ∧ R ≤ 1) ∧
    (∀ R ∈ cell23Rs, 0 ≤ R ∧ R ≤ 1) ∧
    (∀ R ∈ cell27Rs, 0 ≤ R ∧ R ≤ 1) ∧
    (∀ eigs : List ℝ,
      mnistL1 eigs ≤ mnistMu2 eigs ↔ 2 * eigPenult eigs ≤ eigLast eigs + npMin eigs) := by
  refine ⟨?_, ?_, ?_, ?_, ?_, ?_, ?_⟩
  · intro mu L R hmuL hR0 hR1
    simp only [L1closedForm, mu2closedForm]
    nlinarith [mul_nonneg hR0 (sub_nonneg.mpr hmuL)]
  · intro mu1 L2 R hmuL hR0
    simp only [L1centered, mu2centered]
    nlinarith [mul_nonneg (sub_nonneg.mpr hmuL) hR0]
  · constructor <;> norm_num [Ranim]
  · intro R hR
    rcases List.mem_append.mp hR with h | h
    · exact linspace_mem_unit (by norm_num) (by norm_num) (by norm_num) (by norm_num) 20 R h
    · exact linspace_mem_unit (by norm_num) (by norm_num) (by norm_num) (by norm_num) 20 R h
  · intro R hR
    rcases List.mem_append.mp hR with h | h
    · exact linspace_mem_unit (by norm_num) (by norm_num) (by norm_num) (by norm_num) 30 R h
    · exact linspace_mem_unit (by norm_num) (by norm_num) (by norm_num) (by norm_num) 30 R
        (List.mem_reverse.mp h)
  · intro R hR
    rcases List.mem_append.mp hR with h | h
    · exact linspace_mem_unit (by norm_num) (by norm_num) (by norm_num) (by norm_num) 40 R h
    · exact linspace_mem_unit (by norm_num) (by norm_num) (by norm_num) (by norm_num) 40 R
        (List.mem_reverse.mp h)
  · intro eigs
    simp only [mnistL1, mnistMu2]
    constructor <;> intro h <;> linarith

theorem spectral_bounds_invariants_witness :
    (1 : ℝ) / 5 ≤ 2 ∧ (0 : ℝ) ≤ 9 / 10 ∧ (9 : ℝ) / 10 ≤ 1 ∧
      L1closedForm (1 / 5) 2 (9 / 10) ≤ mu2closedForm (1 / 5) 2 (9 / 10) :=
  ⟨by norm_num, by norm_num, by norm_num,
    spectral_bounds_invariants.1 (1 / 5) 2 (9 / 10)
      (by norm_num) (by norm_num) (by norm_num)⟩

/-- The square-root-with-sign recombination used by `poly_cyclical` applied
to a perfect square `y * y` recovers `|y|`. -/
theorem sqrt_abs_mul_self_sign (y : ℝ) :
    Real.sqrt |y * y| * npSign (y * y) = |y| := by
  rcases eq_or_ne y 0 with rfl | hy
  · simp [npSign]
  · have hpos : 0 < y * y := mul_self_pos.mpr hy
    rw [npSign, if_pos hpos, mul_one, abs_of_pos hpos, Real.sqrt_mul_self_eq_abs]

theorem chebT_even_abs (n : ℕ) (hn : Even n) (y c : ℝ) :
    chebT n (|y| / c) = chebT n (y / c) := by
  rcases abs_choice y with h | h
  · rw [h]
  · rw [h, neg_div, chebT_neg, hn.neg_one_pow, one_mul]

theorem chebU_even_abs (n : ℕ) (hn : Even n) (y c : ℝ) :
    chebU n (|y| / c) = chebU n (y / c) := by
  rcases abs_choice y with h | h
  · rw [h]
  · rw [h, neg_div, chebU_neg, hn.neg_one_pow, one_mul]

/-! ## Claim C1 -/

/-- Claim C1 counterexample: with coincident inner bounds the two residual
polynomials differ at odd degree: at `mu = 1, L = 4, x = 5, t = 1` (global
`t` equal to the degree) `poly_cyclical` returns `1` while `poly_polyak`
returns `-1`, because `poly_cyclical` feeds the Chebyshev polynomials the
ABSOLUTE value `|1+m-h*x|/(2*sqrt m)` while `poly_polyak` feeds the signed
value, and odd-degree Chebyshev polynomials are odd. -/
theorem cyclical_polyak_odd_degree_mismatch :
    poly_cyclical ⟨1, 1, 4⟩ 5 1 ((1 + 4) / 2) ((1 + 4) / 2) 4 1 = 1 ∧
    poly_polyak ⟨1, 1, 4⟩ 5 1 4 1 = -1 ∧
    poly_cyclical ⟨1, 1, 4⟩ 5 1 ((1 + 4) / 2) ((1 + 4) / 2) 4 1 ≠
      poly_polyak ⟨1, 1, 4⟩ 5 1 4 1 := by
  have hcyc : poly_cyclical ⟨1, 1, 4⟩ 5 1 ((1 + 4) / 2) ((1 + 4) / 2) 4 1 = 1 := by
    simp only [poly_cyclical]
    rw [show (((1 : ℝ) + 4) / 2 - (1 + 4) / 2) / (4 - 1) = 0 by norm_num]
    rw [show ((0 : ℝ)) ^ 2 = 0 by norm_num]
    simp only [sub_zero, Real.sqrt_one]
    rw [show Real.sqrt ((((4 : ℝ) + 1) / (4 - 1)) ^ 2) = 5 / 3 by
      rw [show (((4 : ℝ) + 1) / (4 - 1)) ^ 2 = (5 / 3 : ℝ) ^ 2 by norm_num]
      exact Real.sqrt_sq (by norm_num)]
    rw [show Real.sqrt ((((4 : ℝ) + 1) / (4 - 1)) ^ 2 - 1) = 4 / 3 by
      rw [show (((4 : ℝ) + 1) / (4 - 1)) ^ 2 - 1 = (4 / 3 : ℝ) ^ 2 by norm_num]
      exact Real.sqrt_sq (by norm_num)]
    simp only [div_one]
    rw [show ((5 : ℝ) / 3 - 4 / 3) = 1 / 3 by norm_num]
    rw [Real.sqrt_sq (by norm_num : (0 : ℝ) ≤ 1 / 3)]
    rw [sqrt_abs_mul_self_sign]
    rw [show |(1 : ℝ) + (1 / 3) ^ 2 - (1 + (1 / 3) ^ 2) / ((1 + 4) / 2) * 5| = 10 / 9 by
      rw [abs_of_nonpos (by norm_num)]
      norm_num]
    norm_num [chebT, chebU]
  have hpol : poly_polyak ⟨1, 1, 4⟩ 5 1 4 1 = -1 := by
    have s4 : Real.sqrt (4 : ℝ) = 2 := sqrt_eq_of_sq_eq (by norm_num) (by norm_num)
    simp only [poly_polyak, Real.sqrt_one, s4]
    rw [show Real.sqrt ((((2 : ℝ) - 1) / (2 + 1)) ^ 2) = 1 / 3 by
      rw [show (((2 : ℝ) - 1) / (2 + 1)) ^ 2 = (1 / 3 : ℝ) ^ 2 by norm_num]
      exact Real.sqrt_sq (by norm_num)]
    norm_num [chebT, chebU]
  exact ⟨hcyc, hpol, by rw [hcyc, hpol]; norm_num⟩

/-- Claim C1 (amended): for every real `x`, every `0 < mu < L`, and every
EVEN degree `t` equal to the global `t` (the residual-polynomial cell only
uses even degrees `t = 2, 4, ..., 18`), `poly_cyclical` with coincident
inner bounds `(mu+L)/2` agrees with `poly_polyak`; at odd degree the two
sides differ in sign wherever `1 + m - h*x < 0`. -/
theorem cyclical_reduces_to_polyak_even (g : Globals) (x mu L : ℝ)
    (hmu : 0 < mu) (hL : mu < L) (ht : Even g.t) :
    poly_cyclical g x mu ((mu + L) / 2) ((mu + L) / 2) L g.t =
      poly_polyak g x mu L g.t := by
  simp only [poly_cyclical, poly_polyak]
  set a := Real.sqrt mu with ha
  set b := Real.sqrt L with hb
  have ha0 : 0 < a := Real.sqrt_pos.mpr hmu
  have hb0 : 0 < b := Real.sqrt_pos.mpr (lt_trans hmu hL)
  have habl : a < b := Real.sqrt_lt_sqrt hmu.le hL
  have ha2 : a ^ 2 = mu := Real.sq_sqrt hmu.le
  have hb2 : b ^ 2 = L := Real.sq_sqrt (lt_trans hmu hL).le
  rw [← ha2, ← hb2]
  have hb2a2 : 0 < b ^ 2 - a ^ 2 := by nlinarith
  have hbasum : 0 < b + a := by linarith
  have hbasub : 0 < b - a := by linarith
  -- the inner bounds coincide, so R = 0
  rw [show ((a ^ 2 + b ^ 2) / 2 - (a ^ 2 + b ^ 2) / 2) / (b ^ 2 - a ^ 2) = 0 by
    rw [sub_self, zero_div]]
  rw [show ((0 : ℝ)) ^ 2 = 0 by norm_num]
  simp only [sub_zero, Real.sqrt_one]
  -- sqrt(rho^2) = rho
  rw [Real.sqrt_sq (le_of_lt (div_pos (by positivity) hb2a2))]
  -- sqrt(rho^2 - 1) = 2ab/(b^2-a^2)
  rw [show Real.sqrt (((b ^ 2 + a ^ 2) / (b ^ 2 - a ^ 2)) ^ 2 - 1) =
      2 * a * b / (b ^ 2 - a ^ 2) by
    apply sqrt_eq_of_sq_eq
    · exact div_nonneg (by positivity) hb2a2.le
    · field_simp
      ring]
  simp only [div_one]
  -- the cyclical momentum equals the Polyak momentum
  rw [show ((b ^ 2 + a ^ 2) / (b ^ 2 - a ^ 2) - 2 * a * b / (b ^ 2 - a ^ 2)) ^ 2 =
      ((b - a) / (b + a)) ^ 2 by
    rw [div_sub_div_same]
    rw [show b ^ 2 + a ^ 2 - 2 * a * b = (b - a) * (b - a) by ring]
    rw [show b ^ 2 - a ^ 2 = (b - a) * (b + a) by ring]
    rw [mul_div_mul_left _ _ (ne_of_gt hbasub)]]
  -- the cyclical step sizes both equal the Polyak step size
  rw [show (1 + ((b - a) / (b + a)) ^ 2) / ((a ^ 2 + b ^ 2) / 2) = (2 / (b + a)) ^ 2 by
    have hs : a ^ 2 + b ^ 2 ≠ 0 := by positivity
    field_simp
    ring]
  -- the product under the square root is a perfect square
  rw [sqrt_abs_mul_self_sign]
  -- even-degree Chebyshev polynomials do not see the lost sign
  rw [chebT_even_abs g.t ht, chebU_even_abs g.t ht]

theorem cyclical_reduces_to_polyak_even_witness :
    (0 : ℝ) < 1 ∧ (1 : ℝ) < 4 ∧ Even (Globals.mk 2 0 0).t ∧
      poly_cyclical ⟨2, 0, 0⟩ 0 1 ((1 + 4) / 2) ((1 + 4) / 2) 4 (Globals.mk 2 0 0).t =
        poly_polyak ⟨2, 0, 0⟩ 0 1 4 (Globals.mk 2 0 0).t :=
  ⟨by norm_num, by norm_num, by decide,
    cyclical_reduces_to_polyak_even ⟨2, 0, 0⟩ 0 1 4 (by norm_num) (by norm_num) (by decide)⟩

/-! ## Claim C9 -/

/-- Claim C9: the classical and cyclical heavy-ball trajectories agree on
their first two stored iterates: both start at `x_init`, and both apply the
identical first update `x - (2/(L+mu)) * (H @ x)` at iteration `0`. -/
theorem first_two_iterates_agree :
    allIteratesMomentum 0 = xInit ∧ allIteratesCyclical 0 = xInit ∧
      allIteratesMomentum 1 = allIteratesCyclical 1 := by
  refine ⟨rfl, rfl, ?_⟩
  simp [allIteratesMomentum, allIteratesCyclical, momentumState, cyclicalState,
    momentumStep, cyclicalStep]

/-! ## Claim C7 -/

/-- Claim C7: in the Polyak heavy-ball loop, every update with `i ≥ 1` is the
two-term update `x - h*(H@x) + m*(x - x_old)` with the fixed coefficients
`h = (2/(sqrt L + sqrt mu))^2` and `m = ((sqrt L - sqrt mu)/(sqrt L + sqrt mu))^2`,
while the `i = 0` update is the plain gradient step with step size `2/(L+mu)`. -/
theorem momentum_step_fixed_coefficients :
    (∀ i : ℕ, 1 ≤ i → ∀ x xold : ℝ × ℝ,
        momentumStep i x xold = x - hPolyakAnim • hessMul x + mPolyakAnim • (x - xold)) ∧
    (∀ x xold : ℝ × ℝ, momentumStep 0 x xold = x - (2 / (Lanim + muAnim)) • hessMul x) ∧
    hPolyakAnim = (2 / (Real.sqrt Lanim + Real.sqrt muAnim)) ^ 2 ∧
    mPolyakAnim = ((Real.sqrt Lanim - Real.sqrt muAnim) /
      (Real.sqrt Lanim + Real.sqrt muAnim)) ^ 2 := by
  refine ⟨?_, ?_, rfl, rfl⟩
  · intro i hi x xold
    have hne : i ≠ 0 := by omega
    simp [momentumStep, hne]
  · intro x xold
    simp [momentumStep]

theorem momentum_step_fixed_coefficients_witness :
    1 ≤ 1 ∧
      momentumStep 1 xInit xInit =
        xInit - hPolyakAnim • hessMul xInit + mPolyakAnim • (xInit - xInit) :=
  ⟨le_refl 1, momentum_step_fixed_coefficients.1 1 (le_refl 1) xInit xInit⟩

/-! ## Claim C5 -/

/-- Claim C5: in the cyclical heavy-ball loop, every update with
`1 ≤ i < max_iter` uses exactly one of the two step sizes, selected by the
parity of `i`: `(1+m)/L1` for even `i` and `(1+m)/mu2` for odd `i`, with the
same momentum coefficient `m` in both branches. -/
theorem cyclical_step_alternates :
    ∀ i : ℕ, 1 ≤ i → i < 10 → ∀ x xold : ℝ × ℝ,
      cyclicalStep i x xold =
        x - ((if i % 2 = 0 then (1 + mCycAnim) / L1anim else (1 + mCycAnim) / mu2anim))
            • hessMul x + mCycAnim • (x - xold) := by
  intro i h1 _h2 x xold
  have hne : i ≠ 0 := by omega
  by_cases hp : i % 2 = 0 <;> simp [cyclicalStep, hne, hp]

theorem cyclical_step_alternates_witness :
    1 ≤ 1 ∧ 1 < 10 ∧
      cyclicalStep 1 xInit xInit =
        xInit - ((if 1 % 2 = 0 then (1 + mCycAnim) / L1anim else (1 + mCycAnim) / mu2anim))
            • hessMul xInit + mCycAnim • (xInit - xInit) :=
  ⟨le_refl 1, by norm_num, cyclical_step_alternates 1 (le_refl 1) (by norm_num) xInit xInit⟩

/-! ## Claim C2 -/

/-- Claim C2 counterexample: `poly_gd` is not independent of the notebook
globals: with identical arguments `(x, t) = (1, 1)` it returns `0` when the
globals are `mu = L = 1` but `1/2` when `mu = 1, L = 3`. -/
theorem poly_gd_depends_on_globals :
    poly_gd ⟨0, 1, 1⟩ 1 1 ≠ poly_gd ⟨0, 1, 3⟩ 1 1 := by
  norm_num [poly_gd]

/-- Claim C2 (amended): `sigma`, `zeta` and `cyclical_rate` are pure functions
of their arguments alone; `poly_gd` and `sigma_r` additionally depend on the
globals `mu` and `L` (and on nothing else), and `poly_polyak` and
`poly_cyclical` additionally depend on the global `t` (and on nothing else);
no function mutates any state. -/
theorem purity_wrt_globals :
    (∀ g g' : Globals, ∀ x m h : ℝ, sigma g x m h = sigma g' x m h) ∧
    (∀ g g' : Globals, ∀ x m h0 h1 : ℝ, zeta g x m h0 h1 = zeta g' x m h0 h1) ∧
    (∀ g g' : Globals, ∀ kappa R : ℝ, cyclical_rate g kappa R = cyclical_rate g' kappa R) ∧
    (∀ g g' : Globals, g.mu = g'.mu → g.L = g'.L →
      (∀ x : ℝ, ∀ t : ℕ, poly_gd g x t = poly_gd g' x t) ∧
      (∀ x m r : ℝ, sigma_r g x m r = sigma_r g' x m r)) ∧
    (∀ g g' : Globals, g.t = g'.t →
      (∀ x low high : ℝ, ∀ d : ℕ, poly_polyak g x low high d = poly_polyak g' x low high d) ∧
      (∀ x mu1 L1 mu2 L2 : ℝ, ∀ d : ℕ,
        poly_cyclical g x mu1 L1 mu2 L2 d = poly_cyclical g' x mu1 L1 mu2 L2 d)) := by
  refine ⟨fun _ _ _ _ _ => rfl, fun _ _ _ _ _ _ => rfl, fun _ _ _ _ => rfl, ?_, ?_⟩
  · intro g g' hmu hL
    constructor
    · intro x t
      simp [poly_gd, hmu, hL]
    · intro x m r
      simp [sigma_r, hmu, hL]
  · intro g g' ht
    constructor
    · intro x low high d
      simp [poly_polyak, ht]
    · intro x mu1 L1 mu2 L2 d
      simp [poly_cyclical, ht]

theorem purity_wrt_globals_witness :
    (Globals.mk 0 1 2).mu = (Globals.mk 5 1 2).mu ∧
    (Globals.mk 0 1 2).L = (Globals.mk 5 1 2).L ∧
    poly_gd ⟨0, 1, 2⟩ 3 1 = poly_gd ⟨5, 1, 2⟩ 3 1 :=
  ⟨rfl, rfl, (purity_wrt_globals.2.2.2.1 ⟨0, 1, 2⟩ ⟨5, 1, 2⟩ rfl rfl).1 3 1⟩

/-! ## Claim C6 -/

/-- Claim C6 counterexample: the residual-polynomial frame loop writes
`'CyclicalResidualPolynomial%02d.png' % (t//2)`, with no underscore between
the stem and the index, so at `t = 2` (frame index `1`) the produced path
fits no `<prefix>_%02d.png` decomposition. -/
theorem residual_path_breaks_convention :
    ¬ followsFrameConvention (residualPolynomialPath 2) 1 := by
  rintro ⟨stem, hstem⟩
  have h1 : '_' ∉ (residualPolynomialPath 2).data := by decide
  apply h1
  rw [hstem]
  have hdata : (stem ++ "_" ++ format02d 1 ++ ".png").data =
      stem.data ++ ("_".data ++ ((format02d 1).data ++ ".png".data)) := by
    simp [String.data_append, List.append_assoc]
  rw [hdata]
  refine List.mem_append.mpr (Or.inr ?_)
  refine List.mem_append.mpr (Or.inl ?_)
  decide

/-- Claim C6 (amended): every per-frame PNG path except the
residual-polynomial loop's follows `<prefix>_%02d.png` with the loop's frame
index; the residual-polynomial loop instead writes
`CyclicalResidualPolynomial%02d.png` (no underscore separator).  `%02d`
yields exactly two digits for every index below 100 (all loops stay below
80 frames) and is lossless there. -/
theorem frame_path_convention :
    (∀ i : ℕ, followsFrameConvention (comparisonCyclicalPath i) i) ∧
    (∀ i : ℕ, followsFrameConvention (linkConstantPath i) i) ∧
    (∀ i : ℕ, followsFrameConvention (linkCyclicalPath i) i) ∧
    (∀ i : ℕ, followsFrameConvention (robustRegionPath i) i) ∧
    (∀ i : ℕ, followsFrameConvention (rateConvergencePath i) i) ∧
    (∀ i : ℕ, followsFrameConvention (asymptoticRatePath i) i) ∧
    (∀ t : ℕ, residualPolynomialPath t =
      "CyclicalResidualPolynomial" ++ format02d (t / 2) ++ ".png") ∧
    (∀ i : ℕ, i < 100 → (format02d i).length = 2) ∧
    (∀ i : ℕ, i < 100 → decodeDigits (format02d i) = i) := by
  refine ⟨fun i => ⟨"comparison_cyclical", rfl⟩,
    fun i => ⟨"link_function_constant", rfl⟩,
    fun i => ⟨"link_function_cyclical", rfl⟩,
    fun i => ⟨"robust_region_cyclical", rfl⟩,
    fun i => ⟨"rate_convergence_cyclical", rfl⟩,
    fun i => ⟨"asymptotic_rate", rfl⟩,
    fun t => rfl, ?_, ?_⟩
  · decide
  · set_option maxRecDepth 4000 in decide

theorem frame_path_convention_witness :
    followsFrameConvention (comparisonCyclicalPath 7) 7 ∧
      (3 : ℕ) < 100 ∧ (format02d 3).length = 2 :=
  ⟨frame_path_convention.1 7, by norm_num,
    frame_path_convention.2.2.2.2.2.2.2.1 3 (by norm_num)⟩

/-! ## Claim C8 -/

/-- For every positive momentum and distinct step sizes there is a point
where the product `(1+m-h0*x)*(1+m-h1*x)` is strictly negative. -/
theorem exists_neg_product (m h0 h1 : ℝ) (hm : 0 < m) (hne : h0 ≠ h1) :
    ∃ x : ℝ, (1 + m - h0 * x) * (1 + m - h1 * x) < 0 := by
  have hm1 : (0 : ℝ) < 1 + m := by linarith
  rcases eq_or_ne h0 0 with h00 | h00
  · subst h00
    have hh1 : h1 ≠ 0 := fun h => hne (h.symm ▸ rfl)
    refine ⟨2 * (1 + m) / h1, ?_⟩
    have e : 1 + m - h1 * (2 * (1 + m) / h1) = -(1 + m) := by
      field_simp
      ring
    have e0 : 1 + m - 0 * (2 * (1 + m) / h1) = 1 + m := by ring
    rw [e0, e]
    nlinarith
  · rcases eq_or_ne h1 0 with h10 | h10
    · subst h10
      refine ⟨2 * (1 + m) / h0, ?_⟩
      have e : 1 + m - h0 * (2 * (1 + m) / h0) = -(1 + m) := by
        field_simp
        ring
      have e0 : 1 + m - 0 * (2 * (1 + m) / h0) = 1 + m := by ring
      rw [e, e0]
      nlinarith
    · rcases lt_trichotomy (h0 * h1) 0 with hs | hs | hs
      · rcases mul_neg_iff.mp hs with ⟨hp, hn⟩ | ⟨hn, hp⟩
        · refine ⟨2 * (1 + m) / h0, ?_⟩
          have e : 1 + m - h0 * (2 * (1 + m) / h0) = -(1 + m) := by
            field_simp
            ring
          rw [e]
          have hxpos : 0 < 2 * (1 + m) / h0 := by positivity
          have hneg : h1 * (2 * (1 + m) / h0) < 0 := mul_neg_of_neg_of_pos hn hxpos
          nlinarith
        · refine ⟨2 * (1 + m) / h1, ?_⟩
          have e : 1 + m - h1 * (2 * (1 + m) / h1) = -(1 + m) := by
            field_simp
            ring
          rw [e]
          have hxpos : 0 < 2 * (1 + m) / h1 := by positivity
          have hneg : h0 * (2 * (1 + m) / h1) < 0 := mul_neg_of_neg_of_pos hn hxpos
          nlinarith
      · exact absurd hs (mul_ne_zero h00 h10)
      · refine ⟨(1 + m) * (h0 + h1) / (2 * (h0 * h1)), ?_⟩
        have e0 : 1 + m - h0 * ((1 + m) * (h0 + h1) / (2 * (h0 * h1))) =
            (1 + m) * (h1 - h0) / (2 * h1) := by
          field_simp
          ring
        have e1 : 1 + m - h1 * ((1 + m) * (h0 + h1) / (2 * (h0 * h1))) =
            (1 + m) * (h0 - h1) / (2 * h0) := by
          field_simp
          ring
        rw [e0, e1]
        have hd : h0 - h1 ≠ 0 := sub_ne_zero.mpr hne
        have hsqpos : 0 < (h0 - h1) ^ 2 :=
          lt_of_le_of_ne (sq_nonneg _) (Ne.symm (pow_ne_zero 2 hd))
        have eprod : (1 + m) * (h1 - h0) / (2 * h1) * ((1 + m) * (h0 - h1) / (2 * h0)) =
            -((1 + m) ^ 2 * (h0 - h1) ^ 2 / (4 * (h0 * h1))) := by
          field_simp
          ring
        rw [eprod]
        have hposq : 0 < (1 + m) ^ 2 * (h0 - h1) ^ 2 / (4 * (h0 * h1)) := by
          apply div_pos
          · exact mul_pos (by positivity) hsqpos
          · linarith
        linarith

/-- Claim C8 counterexample: at `m = 1, h0 = 1, h1 = 2, x = 10` BOTH factors
are negative (so "precisely one positive" does not hold and the claim asserts
the sign of `zeta` equals the sign of the product), the product is positive,
yet `zeta` is strictly negative: the unguarded branch negates the root even
when both factors are negative. -/
theorem zeta_sign_mismatch :
    (1 + 1 - 1 * 10 : ℝ) < 0 ∧ (1 + 1 - 2 * 10 : ℝ) < 0 ∧
      (0 : ℝ) < (1 + 1 - 1 * 10) * (1 + 1 - 2 * 10) ∧
      zeta ⟨0, 0, 0⟩ 10 1 1 2 < 0 := by
  refine ⟨by norm_num, by norm_num, by norm_num, ?_⟩
  unfold zeta
  rw [if_neg (by norm_num)]
  have h36 : ((1 + 1 - 1 * 10) * (1 + 1 - 2 * 10) / (4 * 1) : ℝ) = 36 := by norm_num
  rw [h36]
  have hs : 0 < Real.sqrt 36 := Real.sqrt_pos.mpr (by norm_num)
  linarith

/-- Claim C8 (amended): for every `m > 0` and `h0 ≠ h1` there are inputs
where the product `(1+m-h0*x)*(1+m-h1*x)` is strictly negative; the square
root's argument is strictly negative exactly there, i.e. exactly when one
factor is strictly positive and the other strictly negative (so the guard of
a total embedding fails exactly there, not on the whole "precisely one
factor positive" set, whose boundary has a zero factor).  Elsewhere `zeta`
is real-valued: positive when both factors are positive, zero when the
product is zero, and strictly NEGATIVE when both factors are negative —
there its sign is opposite to the sign of the product. -/
theorem zeta_sign_behaviour (g : Globals) (m h0 h1 : ℝ) (hm : 0 < m) (hne : h0 ≠ h1) :
    (∃ x : ℝ, (1 + m - h0 * x) * (1 + m - h1 * x) < 0) ∧
    (∀ x : ℝ,
      ((1 + m - h0 * x) * (1 + m - h1 * x) / (4 * m) < 0 ↔
        (1 + m - h0 * x) * (1 + m - h1 * x) < 0) ∧
      ((1 + m - h0 * x) * (1 + m - h1 * x) < 0 ↔
        (0 < 1 + m - h0 * x ∧ 1 + m - h1 * x < 0) ∨
          (1 + m - h0 * x < 0 ∧ 0 < 1 + m - h1 * x)) ∧
      (0 < 1 + m - h0 * x ∧ 0 < 1 + m - h1 * x → 0 < zeta g x m h0 h1) ∧
      ((1 + m - h0 * x) * (1 + m - h1 * x) = 0 → zeta g x m h0 h1 = 0) ∧
      (1 + m - h0 * x < 0 ∧ 1 + m - h1 * x < 0 → zeta g x m h0 h1 < 0)) := by
  have h4m : (0 : ℝ) < 4 * m := by linarith
  refine ⟨exists_neg_product m h0 h1 hm hne, fun x => ⟨?_, ?_, ?_, ?_, ?_⟩⟩
  · rw [div_lt_iff₀ h4m, zero_mul]
  · exact mul_neg_iff
  · intro ⟨hA, hB⟩
    unfold zeta
    rw [if_pos ⟨hA, hB⟩]
    exact Real.sqrt_pos.mpr (div_pos (mul_pos hA hB) h4m)
  · intro hP
    unfold zeta
    split_ifs with hcond
    · exact absurd hP (mul_pos hcond.1 hcond.2).ne'
    · rw [hP, zero_div, Real.sqrt_zero, neg_zero]
  · intro ⟨hA, hB⟩
    unfold zeta
    rw [if_neg (fun hc => absurd hc.1 (not_lt.mpr hA.le))]
    have hP : 0 < (1 + m - h0 * x) * (1 + m - h1 * x) := mul_pos_of_neg_of_neg hA hB
    have hs : 0 < Real.sqrt ((1 + m - h0 * x) * (1 + m - h1 * x) / (4 * m)) :=
      Real.sqrt_pos.mpr (div_pos hP h4m)
    linarith

theorem zeta_sign_behaviour_witness :
    (0 : ℝ) < 1 ∧ (1 : ℝ) ≠ 2 ∧ 0 < zeta ⟨0, 0, 0⟩ 0 1 1 2 :=
  ⟨by norm_num, by norm_num,
    ((zeta_sign_behaviour ⟨0, 0, 0⟩ 1 1 2 (by norm_num) (by norm_num)).2 0).2.2.1
      ⟨by norm_num, by norm_num⟩⟩

/-! ## Claim C4 -/

/-- Claim C4: for `0 < kappa < 1` and `0 ≤ R < 1`, `cyclical_rate` returns
rates with `r_cyclical ≤ r_polyak`, with equality at `R = 0`. -/
theorem cyclical_rate_le_polyak (g : Globals) (kappa R : ℝ)
    (hk1 : 0 < kappa) (hk2 : kappa < 1) (hR1 : 0 ≤ R) (hR2 : R < 1) :
    (cyclical_rate g kappa R).2.1 ≤ (cyclical_rate g kappa R).1 ∧
    (cyclical_rate g kappa 0).2.1 = (cyclical_rate g kappa 0).1 := by
  set rho : ℝ := (1 + kappa) / (1 - kappa) with hrho
  have hden : (0 : ℝ) < 1 - kappa := by linarith
  have hrho1 : 1 < rho := by
    rw [hrho, lt_div_iff₀ hden]; linarith
  have hrho0 : 0 < rho := lt_trans one_pos hrho1
  have hrhosq : 1 < rho ^ 2 := by nlinarith
  set c : ℝ := Real.sqrt (rho ^ 2 - 1) with hcdef
  have hc2 : c ^ 2 = rho ^ 2 - 1 := Real.sq_sqrt (by linarith)
  have hcpos : 0 < c := Real.sqrt_pos.mpr (by linarith)
  have hcrho : c < rho := by nlinarith [hc2]
  have hR2lt : R ^ 2 < 1 := by nlinarith
  set u : ℝ := Real.sqrt (1 - R ^ 2) with hudef
  have hu2 : u ^ 2 = 1 - R ^ 2 := Real.sq_sqrt (by linarith)
  have hupos : 0 < u := Real.sqrt_pos.mpr (by linarith)
  have hule : u ≤ 1 := Real.sqrt_le_one.mpr (by nlinarith)
  set d : ℝ := Real.sqrt (rho ^ 2 - R ^ 2) with hddef
  have hd2 : d ^ 2 = rho ^ 2 - R ^ 2 := Real.sq_sqrt (by nlinarith)
  have hkey : d ≤ c + u * (rho - c) := by
    rw [hddef, Real.sqrt_le_iff]
    have hprod : (0 : ℝ) ≤ 2 * c * (rho - c) * u * (1 - u) := by
      have h1 : (0 : ℝ) ≤ rho - c := by linarith
      have h2 : (0 : ℝ) ≤ 1 - u := by linarith
      positivity
    have hpc : 1 - (rho - c) ^ 2 = 2 * c * (rho - c) := by nlinarith [hc2]
    constructor
    · nlinarith [mul_pos hupos (sub_pos.mpr hcrho)]
    · nlinarith [hc2, hu2, hpc, hprod]
  have part1 : (d - c) / u ≤ rho - c := by
    rw [div_le_iff₀ hupos]
    linarith [hkey]
  have hrc : (cyclical_rate g kappa R).2.1 = (d - c) / u := rfl
  have hrp : (cyclical_rate g kappa R).1 = rho - c := rfl
  refine ⟨by rw [hrc, hrp]; exact part1, ?_⟩
  have e1 : (cyclical_rate g kappa 0).2.1 =
      (Real.sqrt (rho ^ 2 - 0 ^ 2) - c) / Real.sqrt (1 - 0 ^ 2) := rfl
  have e2 : (cyclical_rate g kappa 0).1 = rho - c := rfl
  rw [e1, e2]
  norm_num [Real.sqrt_sq hrho0.le]

theorem cyclical_rate_le_polyak_witness :
    (0 : ℝ) < 1 / 2 ∧ (1 : ℝ) / 2 < 1 ∧ (0 : ℝ) ≤ 1 / 2 ∧ (1 : ℝ) / 2 < 1 ∧
      ((cyclical_rate ⟨0, 0, 0⟩ (1 / 2) (1 / 2)).2.1 ≤ (cyclical_rate ⟨0, 0, 0⟩ (1 / 2) (1 / 2)).1 ∧
        (cyclical_rate ⟨0, 0, 0⟩ (1 / 2) 0).2.1 = (cyclical_rate ⟨0, 0, 0⟩ (1 / 2) 0).1) :=
  ⟨by norm_num, by norm_num, by norm_num, by norm_num,
    cyclical_rate_le_polyak ⟨0, 0, 0⟩ (1 / 2) (1 / 2)
      (by norm_num) (by norm_num) (by norm_num) (by norm_num)⟩

/-! ## Claim C10 -/

/-- Claim C10: the residual polynomials are normalized to `1` at the origin:
`poly_gd(0, t) = 1` for every `t`, and `poly_polyak(0, low, high, t) = 1` for
every `0 < low < high` with the degree equal to the global `t`. -/
theorem residual_polynomials_normalized :
    (∀ g : Globals, ∀ t : ℕ, poly_gd g 0 t = 1) ∧
    (∀ g : Globals, ∀ low high : ℝ, 0 < low → low < high →
      poly_polyak g 0 low high g.t = 1) := by
  constructor
  · intro g t
    simp [poly_gd]
  · intro g low high h1 h2
    have hm : 0 < ((Real.sqrt high - Real.sqrt low) / (Real.sqrt high + Real.sqrt low)) ^ 2 := by
      have hlow : 0 < Real.sqrt low := Real.sqrt_pos.mpr h1
      have hlt : Real.sqrt low < Real.sqrt high := Real.sqrt_lt_sqrt h1.le h2
      have hnum : 0 < Real.sqrt high - Real.sqrt low := by linarith
      have hden : 0 < Real.sqrt high + Real.sqrt low := by linarith
      positivity
    simp only [poly_polyak, mul_zero, sub_zero]
    exact polyakCombo_at_one _ hm g.t

theorem residual_polynomials_normalized_witness :
    (0 : ℝ) < 1 ∧ (1 : ℝ) < 4 ∧ poly_polyak ⟨3, 0, 0⟩ 0 1 4 (Globals.mk 3 0 0).t = 1 :=
  ⟨by norm_num, by norm_num,
    residual_polynomials_normalized.2 ⟨3, 0, 0⟩ 1 4 (by norm_num) (by norm_num)⟩

end
